import Mathlib

/-!
Verification of the MTG Arena Deck Builder response-processing engine.

The definitions below are a shallow embedding of the repository's
JavaScript source:

* `app.js` — `getFilteredCardList`, `buildCardListText` (classification),
  `parseDeckList`, `displayDeck` (deck-text rendering) and
  `computeAndDisplayStats` (the numeric part);
* `functions/api/chat.js` and the worker — the proxy payload construction.

Strings are modelled as Lean `String`s / `List Char`; JavaScript numbers
arising here are integer- or rational-valued and are embedded as `ℤ` / `ℚ`.
-/

namespace DeckBuilder

/-! ### JavaScript string primitives

`isJsWS` is the character class matched by the JavaScript regexp `\s` and
removed by `String.prototype.trim` (WhiteSpace ∪ LineTerminator);
`isDigitCh` is `\d` (ASCII digits); `lowerCh` is ASCII lowercasing, which is
what the `i` flag of a non-`u` regexp amounts to when the pattern is an
ASCII word such as `deck`. -/

def isJsWS (c : Char) : Bool :=
  let n := c.toNat
  n = 0x20 || n = 0x09 || n = 0x0A || n = 0x0D || n = 0x0B || n = 0x0C ||
  n = 0xA0 || n = 0x1680 || (0x2000 ≤ n && n ≤ 0x200A) || n = 0x2028 ||
  n = 0x2029 || n = 0x202F || n = 0x205F || n = 0x3000 || n = 0xFEFF

def isDigitCh (c : Char) : Bool :=
  48 ≤ c.toNat && c.toNat ≤ 57

/-- The ECMAScript LineTerminator characters, which the regexp `.` does
not match (the `s` flag is not used). -/
def isLineTerm (c : Char) : Bool :=
  c.toNat = 0x0A || c.toNat = 0x0D || c.toNat = 0x2028 || c.toNat = 0x2029

def lowerCh (c : Char) : Char :=
  if 65 ≤ c.toNat && c.toNat ≤ 90 then Char.ofNat (c.toNat + 32) else c

def toLowerL (l : List Char) : List Char := l.map lowerCh

/-- Remove trailing whitespace (the tail half of `String.prototype.trim`). -/
def dropTrailingWS : List Char → List Char
  | [] => []
  | c :: cs =>
    let r := dropTrailingWS cs
    if r.isEmpty then (if isJsWS c then [] else [c]) else c :: r

/-- JavaScript `line.trim()`. -/
def trimL (l : List Char) : List Char := dropTrailingWS (l.dropWhile isJsWS)

/-- JavaScript `text.split('\n')` (keeps empty pieces, never returns `[]`). -/
def splitLines : List Char → List (List Char)
  | [] => [[]]
  | c :: rest =>
    match splitLines rest with
    | [] => [[c]]
    | l :: ls => if c = '\n' then [] :: l :: ls else (c :: l) :: ls

/-- JavaScript `s.includes(sub)` — contiguous substring test. -/
def jsIncludes (s sub : String) : Bool := decide (sub.data <:+: s.data)

/-- `parseInt(digits, 10)` on a string of ASCII digits. -/
def parseIntDigits (ds : List Char) : ℤ :=
  ds.foldl (fun a c => 10 * a + ((c.toNat : ℤ) - 48)) 0

def digitChar (n : ℕ) : Char := Char.ofNat (48 + n)

/-- Decimal digits of a natural number, fuel-recursive so that it reduces
definitionally (the fuel `n + 1` always suffices). -/
def natDecimalAux : ℕ → ℕ → List Char
  | 0, _ => []
  | fuel + 1, n =>
    if n < 10 then [digitChar n]
    else natDecimalAux fuel (n / 10) ++ [digitChar (n % 10)]

def natDecimal (n : ℕ) : List Char := natDecimalAux (n + 1) n

/-- JavaScript exponential notation for an exact integer value of
magnitude at least 10^21: the decimal digits with trailing zeros
stripped, rendered as `d.ddd`, followed by `e+` and the decimal exponent
(the digit count minus one).  `String(1e21)` is `"1e+21"`. -/
def jsExpChars (m : ℕ) : List Char :=
  let ds := natDecimal m
  let s := (ds.reverse.dropWhile (fun c => c = '0')).reverse
  (match s with
   | [] => ['0']
   | c :: rest => if rest.isEmpty then [c] else c :: '.' :: rest)
  ++ 'e' :: '+' :: natDecimal (ds.length - 1)

/-- JavaScript `String(n)` / template interpolation for an integer value:
plain decimal notation for magnitudes below 10^21, exponential notation
(`1e+21`, `1.5e+21`, …) from 10^21 on.  Values are modelled as exact
integers (`parseInt` of a digit token, embedded as `ℤ`); the precision a
double loses above 2^53 is not modelled. -/
def jsIntDecimal (n : ℤ) : List Char :=
  if n < 0 then
    '-' :: (if -n < 10 ^ 21 then natDecimal (-n).toNat else jsExpChars (-n).toNat)
  else if n < 10 ^ 21 then natDecimal n.toNat
  else jsExpChars n.toNat

def jsIntToString (n : ℤ) : String := ⟨jsIntDecimal n⟩

example : jsIntToString (10 ^ 21) = "1e+21" := by decide

example : jsIntToString (15 * 10 ^ 20) = "1.5e+21" := by decide

/-! ### The deck-list parser (`parseDeckList` in `app.js`) -/

/-- A `count name` line of a deck list.  `count` is the value `parseInt`
returned for the digit token (a JavaScript number, embedded as `ℤ`). -/
structure DeckEntry where
  count : ℤ
  name : String
deriving DecidableEq, Repr

/-- The result of a successful parse: `{deck, sideboard, explanation}`. -/
structure ParsedDeck where
  deck : List DeckEntry
  sideboard : Option (List DeckEntry)
  explanation : String
deriving DecidableEq, Repr

inductive Sect
  | deck
  | sideboard
deriving DecidableEq, Repr

/-- The loop state of `parseDeckList`. -/
structure PState where
  deck : List DeckEntry
  sideboard : List DeckEntry
  currentSection : Option Sect
  explanation : List (List Char)
  pastDeck : Bool
deriving Repr

def initState : PState := ⟨[], [], none, [], false⟩

/-- The `\s+(.+)$` tail of the entry regexp, applied after the count (and
optional `x`).  `(.+)$` must run to the end of the line and `.` does not
match a LineTerminator, so after the greedy `\s+` the remainder must be
non-empty and free of line terminators (a terminator inside it can never
be skipped: `.+` is contiguous, and everything before its start must be
matched by `\s+`).  When the remainder is all whitespace, backtracking
hands the last character to `(.+)`, which matches it only if it is not a
line terminator. -/
def wsName (s : List Char) : Option (List Char) :=
  let ws := s.takeWhile isJsWS
  let r := s.dropWhile isJsWS
  if ws.isEmpty then none
  else if r.isEmpty then
    if 2 ≤ ws.length && !isLineTerm (ws.getLastD ' ') then
      some [ws.getLastD ' ']
    else none
  else if r.any isLineTerm then none
  else some r

/-- The `x?\s+(.+)$` tail of the entry regexp, applied to the text after
the digit run.  If the first character is `x` it must be consumed (the
branch that skips it dies immediately, because `x` is not whitespace);
on an empty remainder `\s+` fails. -/
def entryBody (rest : List Char) : Option (List Char) :=
  match rest with
  | c :: r => if c = 'x' then wsName r else wsName rest
  | [] => none

/-- `trimmed.match(/^(\d+)x?\s+(.+)$/)`, returning
`(parseInt(match[1], 10), match[2].trim())`.  `(\d+)` is the maximal
leading digit run (shrinking it can never help: the next character would
be a digit, which is neither `x` nor whitespace). -/
def matchEntry (cs : List Char) : Option (ℤ × List Char) :=
  let digits := cs.takeWhile isDigitCh
  if digits.isEmpty then none
  else
    match entryBody (cs.dropWhile isDigitCh) with
    | none => none
    | some nm => some (parseIntDigits digits, trimL nm)

/-- JavaScript `/^[-=]+$/.test(trimmed)`. -/
def isDecorative (cs : List Char) : Bool :=
  !cs.isEmpty && cs.all (fun c => c = '-' || c = '=')

/-- The tail of the loop body of `parseDeckList`, reached when the line was
neither a section header nor a recorded entry: possibly set `pastDeck` and
possibly append the trimmed line to the explanation. -/
def explCollect (st : PState) (m : Option (ℤ × List Char)) (trimmed : List Char) :
    PState :=
  let pastDeck :=
    if !st.deck.isEmpty && m.isNone && !trimmed.isEmpty
        && decide (st.currentSection ≠ some Sect.sideboard)
        && !isDecorative trimmed
    then true else st.pastDeck
  if pastDeck && !trimmed.isEmpty then
    { st with pastDeck := pastDeck, explanation := st.explanation ++ [trimmed] }
  else
    { st with pastDeck := pastDeck }

/-- One iteration of the `for (const line of lines)` loop of
`parseDeckList`. -/
def processLine (st : PState) (line : List Char) : PState :=
  let trimmed := trimL line
  if toLowerL trimmed = "deck".data then
    { st with currentSection := some Sect.deck }
  else if toLowerL trimmed = "sideboard".data then
    { st with currentSection := some Sect.sideboard }
  else
    match matchEntry trimmed, st.currentSection with
    | some (count, nm), some Sect.deck =>
        { st with deck := st.deck ++ [⟨count, ⟨nm⟩⟩] }
    | some (count, nm), some Sect.sideboard =>
        { st with sideboard := st.sideboard ++ [⟨count, ⟨nm⟩⟩] }
    | m, _ => explCollect st m trimmed

def parseLines (lines : List (List Char)) : Option ParsedDeck :=
  let st := lines.foldl processLine initState
  if st.deck.isEmpty then none
  else some
    { deck := st.deck
      sideboard := if st.sideboard.length > 0 then some st.sideboard else none
      explanation := ⟨List.intercalate ['\n'] st.explanation⟩ }

/-- `parseDeckList` of `app.js`: `null` deck becomes `none`. -/
def parseDeckList (text : String) : Option ParsedDeck :=
  parseLines (splitLines text.data)

example :
    parseDeckList "Deck\n4 Mountain\n2 Shock\n\nSideboard\n1 Negate\n\nThis deck is aggressive." =
      some ⟨[⟨4, "Mountain"⟩, ⟨2, "Shock"⟩], some [⟨1, "Negate"⟩], ""⟩ := by
  decide

example : parseDeckList "no deck here\n3 Shock" = none := by decide

example :
    parseDeckList "Deck\n4x Mountain\nGreat deck!\n\nSideboard\n1 Negate" =
      some ⟨[⟨4, "Mountain"⟩], some [⟨1, "Negate"⟩], "Great deck!"⟩ := by
  decide

/-! ### The card catalog and `getFilteredCardList` -/

/-- A card record as stored in `cardDataMap` by `loadDatabase`. -/
structure Card where
  colorIdentity : List String
  typeLine : String
  manaCost : String
  cmc : ℚ
  rarity : String
  oracleText : String
  keywords : List String
deriving DecidableEq, Repr

/-- The session's catalog state: the ordered `cardNames` list and the
`cardDataMap` object (a lookup that may miss).  In the application the two
are built together, so every name in `cardNames` has a map entry. -/
structure Catalog where
  cardNames : List String
  cardDataMap : String → Option Card

/-- `colors.filter(c => c !== 'C')` — the selection minus the colorless
marker. -/
def wubrgOf (colors : List String) : List String :=
  colors.filter (fun c => decide (c ≠ "C"))

/-- `getFilteredCardList` of `app.js`.  The `none` branch of the lookup is
unreachable in the application (`cardNames` are exactly the keys of
`cardDataMap`); the JavaScript would throw there. -/
def getFilteredCardList (cat : Catalog) (selectedColors : List String) :
    List String :=
  let colors := selectedColors
  let wantColorless := colors.contains "C"
  let wubrg := wubrgOf colors
  cat.cardNames.filter fun name =>
    match cat.cardDataMap name with
    | none => false
    | some card =>
      let ci := card.colorIdentity
      if jsIncludes card.typeLine "Basic Land" then true
      else if wubrg.isEmpty && !wantColorless then true
      else if ci.isEmpty then wantColorless || wubrg.isEmpty
      else ci.all (fun c => wubrg.contains c)

/-! ### Type classification (`buildCardListText` in `app.js`) -/

/-- The `baseType` computed for each card by `buildCardListText`:
an if/else-if chain over `typeLine.includes(...)`, with `Land` tested
before `Battle`. -/
def baseTypeOf (tl : String) : String :=
  if jsIncludes tl "Creature" then "Creature"
  else if jsIncludes tl "Instant" then "Instant"
  else if jsIncludes tl "Sorcery" then "Sorcery"
  else if jsIncludes tl "Enchantment" then "Enchantment"
  else if jsIncludes tl "Artifact" then "Artifact"
  else if jsIncludes tl "Planeswalker" then "Planeswalker"
  else if jsIncludes tl "Land" then "Land"
  else if jsIncludes tl "Battle" then "Battle"
  else "Other"

/-- The classification described by the specification's words: test the
type line against an ordered keyword list, first match wins, default
category `Other`. -/
def firstMatchCategory (order : List String) (tl : String) : String :=
  (order.find? (fun k => jsIncludes tl k)).getD "Other"

/-! ### Deck-text rendering (`displayDeck` in `app.js`) -/

/-- The characters of one `${entry.count} ${entry.name}\n` line. -/
def renderEntryChars (e : DeckEntry) : List Char :=
  jsIntDecimal e.count ++ ' ' :: e.name.data

/-- The Arena-format deck text built by `displayDeck`: a `Deck` header,
one `count name` line per entry, and — when the sideboard is present and
non-empty — a blank line, a `Sideboard` header and its entry lines. -/
def displayDeckText (p : ParsedDeck) : String :=
  let mainPart :=
    "Deck\n".data ++ (p.deck.map (fun e => renderEntryChars e ++ ['\n'])).flatten
  let sbPart :=
    match p.sideboard with
    | some sb =>
      if sb.isEmpty then []
      else "\nSideboard\n".data ++ (sb.map (fun e => renderEntryChars e ++ ['\n'])).flatten
    | none => []
  ⟨mainPart ++ sbPart⟩

example :
    displayDeckText ⟨[⟨4, "Mountain"⟩], some [⟨1, "Negate"⟩], ""⟩ =
      "Deck\n4 Mountain\n\nSideboard\n1 Negate\n" := by decide

/-! ### Deck statistics (`computeAndDisplayStats` in `app.js`) -/

/-- The numeric result of `computeAndDisplayStats`: totals, the mana-curve
histogram (an object read back with `manaCurve[k] || 0`, embedded as a
total function defaulting to `0`), and the unrecognized entries. -/
structure Stats where
  totalCards : ℤ
  totalCreatures : ℤ
  totalLands : ℤ
  totalSpells : ℤ
  manaCurve : String → ℤ
  unrecognized : List DeckEntry

def initStats : Stats := ⟨0, 0, 0, 0, fun _ => 0, []⟩

/-- One iteration of the `for (const entry of allCards)` loop. -/
def statStep (lookup : String → Option Card) (st : Stats) (e : DeckEntry) :
    Stats :=
  let st := { st with totalCards := st.totalCards + e.count }
  match lookup e.name with
  | none => st
  | some data =>
    let tl := data.typeLine
    let st :=
      if jsIncludes tl "Land" then
        { st with totalLands := st.totalLands + e.count }
      else if jsIncludes tl "Creature" then
        { st with totalCreatures := st.totalCreatures + e.count }
      else
        { st with totalSpells := st.totalSpells + e.count }
    if jsIncludes tl "Land" then st
    else
      let cmcBucket : ℤ := min ⌊data.cmc⌋ 7
      let label := if 7 ≤ cmcBucket then "7+" else jsIntToString cmcBucket
      { st with manaCurve :=
          fun k => if k = label then st.manaCurve k + e.count else st.manaCurve k }

/-- The stats computation of `computeAndDisplayStats` on the main deck. -/
def computeDeckStats (deck : List DeckEntry) (lookup : String → Option Card) :
    Stats :=
  let st := deck.foldl (statStep lookup) initStats
  { st with unrecognized := deck.filter (fun e => (lookup e.name).isNone) }

/-- The eight mana-curve display buckets `'0' .. '6', '7+'`. -/
def curveBuckets : List String := ["0", "1", "2", "3", "4", "5", "6", "7+"]

/-- The sum of the mana-curve histogram over the eight display buckets. -/
def curveSum (st : Stats) : ℤ := (curveBuckets.map st.manaCurve).sum

/-! ### The API proxy payload (`functions/api/chat.js` and the worker) -/

structure ChatMsg where
  role : String
  content : String
deriving DecidableEq, Repr

/-- The request body fields the proxy reads.  `messages = none` stands for
an absent or non-array field; for the scalar fields `none` stands for an
absent (or null/undefined) field. -/
structure ChatRequest where
  messages : Option (List ChatMsg)
  model : Option String
  temperature : Option ℚ
  max_tokens : Option ℤ

structure ChatPayload where
  model : String
  messages : List ChatMsg
  temperature : ℚ
  max_tokens : ℤ

/-- The validation `Array.isArray(body.messages) && body.messages.length > 0`
performed by `onRequestPost` before forwarding. -/
def acceptsRequest (b : ChatRequest) : Bool :=
  match b.messages with
  | some ms => !ms.isEmpty
  | none => false

/-- The forwarded payload.  JavaScript `||` treats `''` and `0` as absent
(falsy), while `??` (used for `temperature`) only treats null/undefined as
absent. -/
def buildPayload (b : ChatRequest) : ChatPayload :=
  { model :=
      match b.model with
      | some m => if m = "" then "gpt-4o" else m
      | none => "gpt-4o"
    messages := b.messages.getD []
    temperature := b.temperature.getD (7 / 10 : ℚ)
    max_tokens :=
      min (match b.max_tokens with
           | some t => if t = 0 then 4000 else t
           | none => 4000) 8000 }

/-- `onRequestPost`, reduced to its data flow: reject bodies without a
non-empty `messages` array, otherwise forward `buildPayload`. -/
def onRequestPostPayload (b : ChatRequest) : Option ChatPayload :=
  if acceptsRequest b then some (buildPayload b) else none

/-! ### Auxiliary lemmas: characters and digit strings -/

theorem isDigitCh_not_ws {c : Char} (h : isDigitCh c = true) : isJsWS c = false := by
  simp only [isDigitCh, Bool.and_eq_true, decide_eq_true_eq] at h
  simp only [isJsWS]
  simp only [Bool.or_eq_false_iff, Bool.and_eq_false_iff, decide_eq_false_iff_not]
  omega

theorem isDigitCh_ne_newline {c : Char} (h : isDigitCh c = true) : c ≠ '\n' := by
  rintro rfl
  exact absurd h (by decide)

theorem lowerCh_of_digit {c : Char} (h : isDigitCh c = true) : lowerCh c = c := by
  simp only [isDigitCh, Bool.and_eq_true, decide_eq_true_eq] at h
  unfold lowerCh
  rw [if_neg]
  simp only [Bool.and_eq_true, decide_eq_true_eq, not_and]
  omega

/-- A line starting with an ASCII digit is never one of the two section
headers, even case-insensitively. -/
theorem toLowerL_digit_ne_header {c : Char} (hc : isDigitCh c = true) (t : List Char) :
    toLowerL (c :: t) ≠ "deck".data ∧ toLowerL (c :: t) ≠ "sideboard".data := by
  have hto : 48 ≤ c.toNat ∧ c.toNat ≤ 57 := by
    simpa only [isDigitCh, Bool.and_eq_true, decide_eq_true_eq] using hc
  have hl : lowerCh c = c := lowerCh_of_digit hc
  constructor <;> intro h <;>
    rw [toLowerL, List.map_cons, hl] at h
  · have : c = 'd' := (List.cons.injEq _ _ _ _ ▸ h).1
    have := congrArg Char.toNat this
    simp at this; omega
  · have : c = 's' := (List.cons.injEq _ _ _ _ ▸ h).1
    have := congrArg Char.toNat this
    simp at this; omega

theorem parseIntDigits_aux_nonneg (ds : List Char) (a : ℤ) (ha : 0 ≤ a)
    (h : ∀ c ∈ ds, isDigitCh c = true) :
    0 ≤ ds.foldl (fun a c => 10 * a + ((c.toNat : ℤ) - 48)) a := by
  induction ds generalizing a with
  | nil => simpa
  | cons c cs ih =>
    simp only [List.foldl_cons]
    refine ih _ ?_ (fun x hx => h x (List.mem_cons_of_mem _ hx))
    have hc := h c (List.mem_cons_self _ _)
    simp only [isDigitCh, Bool.and_eq_true, decide_eq_true_eq] at hc
    have : (48 : ℤ) ≤ (c.toNat : ℤ) := by exact_mod_cast hc.1
    omega

theorem parseIntDigits_nonneg {ds : List Char}
    (h : ∀ c ∈ ds, isDigitCh c = true) : 0 ≤ parseIntDigits ds :=
  parseIntDigits_aux_nonneg ds 0 le_rfl h

theorem digitChar_toNat {n : ℕ} (h : n < 10) : (digitChar n).toNat = 48 + n := by
  interval_cases n <;> decide

theorem digitChar_isDigit {n : ℕ} (h : n < 10) : isDigitCh (digitChar n) = true := by
  interval_cases n <;> decide

theorem natDecimalAux_spec : ∀ (fuel n : ℕ), n < fuel →
    natDecimalAux fuel n ≠ [] ∧
    (∀ a ∈ natDecimalAux fuel n, isDigitCh a = true) ∧
    parseIntDigits (natDecimalAux fuel n) = (n : ℤ)
  | 0, n, h => absurd h (Nat.not_lt_zero n)
  | fuel + 1, n, h => by
    by_cases h10 : n < 10
    · simp only [natDecimalAux, if_pos h10]
      refine ⟨by simp, ?_, ?_⟩
      · intro a ha
        rw [List.mem_singleton] at ha
        subst ha
        exact digitChar_isDigit h10
      · simp only [parseIntDigits, List.foldl_cons, List.foldl_nil,
          digitChar_toNat h10]
        push_cast
        omega
    · have hf : n / 10 < fuel := by omega
      obtain ⟨h1, h2, h3⟩ := natDecimalAux_spec fuel (n / 10) hf
      have hm : n % 10 < 10 := Nat.mod_lt _ (by norm_num)
      simp only [natDecimalAux, if_neg h10]
      refine ⟨by simp, ?_, ?_⟩
      · intro a ha
        rcases List.mem_append.mp ha with h' | h'
        · exact h2 a h'
        · rw [List.mem_singleton] at h'
          subst h'
          exact digitChar_isDigit hm
      · unfold parseIntDigits at h3 ⊢
        rw [List.foldl_append, h3, List.foldl_cons, List.foldl_nil,
          digitChar_toNat hm]
        push_cast
        omega

theorem natDecimal_spec (n : ℕ) :
    natDecimal n ≠ [] ∧ (∀ a ∈ natDecimal n, isDigitCh a = true) ∧
    parseIntDigits (natDecimal n) = (n : ℤ) :=
  natDecimalAux_spec (n + 1) n (Nat.lt_succ_self n)

/-! ### Auxiliary lemmas: trimming -/

theorem dropTrailingWS_sub {l : List Char} {a : Char}
    (h : a ∈ dropTrailingWS l) : a ∈ l := by
  induction l with
  | nil => simp [dropTrailingWS] at h
  | cons c cs ih =>
    simp only [dropTrailingWS] at h
    by_cases hr : (dropTrailingWS cs).isEmpty
    · rw [if_pos hr] at h
      by_cases hc : isJsWS c
      · rw [if_pos hc] at h; simp at h
      · rw [if_neg hc] at h
        rw [List.mem_singleton] at h
        subst h
        exact List.mem_cons_self _ _
    · rw [if_neg hr] at h
      rcases List.mem_cons.mp h with rfl | h'
      · exact List.mem_cons_self _ _
      · exact List.mem_cons_of_mem _ (ih h')

theorem dropTrailingWS_getLast? {l : List Char} {a : Char}
    (h : (dropTrailingWS l).getLast? = some a) : isJsWS a = false := by
  induction l with
  | nil => simp [dropTrailingWS] at h
  | cons c cs ih =>
    simp only [dropTrailingWS] at h
    by_cases hr : (dropTrailingWS cs).isEmpty
    · rw [if_pos hr] at h
      by_cases hc : isJsWS c
      · rw [if_pos hc] at h; simp at h
      · rw [if_neg hc] at h
        simp only [List.getLast?_singleton, Option.some.injEq] at h
        subst h
        simpa using hc
    · rw [if_neg hr] at h
      have hne : dropTrailingWS cs ≠ [] := by
        simpa [List.isEmpty_iff] using hr
      rw [show c :: dropTrailingWS cs = [c] ++ dropTrailingWS cs from rfl,
        List.getLast?_append_of_ne_nil _ hne] at h
      exact ih h

theorem dropTrailingWS_head? {l : List Char} (h : dropTrailingWS l ≠ []) :
    (dropTrailingWS l).head? = l.head? := by
  cases l with
  | nil => simp [dropTrailingWS] at h
  | cons c cs =>
    simp only [dropTrailingWS] at h ⊢
    by_cases hr : (dropTrailingWS cs).isEmpty
    · rw [if_pos hr] at h ⊢
      by_cases hc : isJsWS c
      · rw [if_pos hc] at h; exact absurd rfl h
      · rw [if_neg hc]; rfl
    · rw [if_neg hr]; rfl

theorem dropWhile_head?_not {p : Char → Bool} {l : List Char} {a : Char}
    (h : (l.dropWhile p).head? = some a) : p a = false := by
  have := List.head?_dropWhile_not p l
  rw [h] at this
  exact this

theorem trimL_head? {l : List Char} {a : Char} (h : (trimL l).head? = some a) :
    isJsWS a = false := by
  unfold trimL at h
  have hne : dropTrailingWS (l.dropWhile isJsWS) ≠ [] := by
    intro h0; rw [h0] at h; simp at h
  rw [dropTrailingWS_head? hne] at h
  exact dropWhile_head?_not h

theorem trimL_getLast? {l : List Char} {a : Char}
    (h : (trimL l).getLast? = some a) : isJsWS a = false := by
  unfold trimL at h
  exact dropTrailingWS_getLast? h

theorem trimL_sub {l : List Char} {a : Char} (h : a ∈ trimL l) : a ∈ l :=
  (List.dropWhile_sublist _).subset (dropTrailingWS_sub h)

theorem dropWhile_eq_self_of_head {p : Char → Bool} {l : List Char}
    (h : ∀ a, l.head? = some a → p a = false) : l.dropWhile p = l := by
  cases l with
  | nil => rfl
  | cons c cs => exact List.dropWhile_cons_of_neg (by simp [h c rfl])

theorem dropTrailingWS_eq_self {l : List Char}
    (h : ∀ a, l.getLast? = some a → isJsWS a = false) : dropTrailingWS l = l := by
  induction l with
  | nil => rfl
  | cons c cs ih =>
    simp only [dropTrailingWS]
    by_cases hcs : cs = []
    · subst hcs
      have hc := h c (by simp)
      simp [dropTrailingWS, hc]
    · have hr : dropTrailingWS cs = cs :=
        ih (fun a ha => h a (by
          rw [show c :: cs = [c] ++ cs from rfl,
            List.getLast?_append_of_ne_nil _ hcs]
          exact ha))
      rw [hr, if_neg (by simpa [List.isEmpty_iff] using hcs)]

theorem trimL_eq_self {l : List Char}
    (hh : ∀ a, l.head? = some a → isJsWS a = false)
    (hl : ∀ a, l.getLast? = some a → isJsWS a = false) : trimL l = l := by
  unfold trimL
  rw [dropWhile_eq_self_of_head hh, dropTrailingWS_eq_self hl]

/-! ### Auxiliary lemmas: line splitting -/

theorem splitLines_ne_nil (cs : List Char) : splitLines cs ≠ [] := by
  cases cs with
  | nil => simp [splitLines]
  | cons c rest =>
    simp only [splitLines]
    cases h : splitLines rest with
    | nil => simp
    | cons l ls => by_cases hc : c = '\n' <;> simp [hc]

theorem splitLines_cons_newline (ys : List Char) :
    splitLines ('\n' :: ys) = [] :: splitLines ys := by
  simp only [splitLines]
  cases h : splitLines ys with
  | nil => exact absurd h (splitLines_ne_nil ys)
  | cons l ls => simp

theorem splitLines_cons_other {c : Char} (hc : c ≠ '\n') {ys : List Char}
    {l : List Char} {ls : List (List Char)} (h : splitLines ys = l :: ls) :
    splitLines (c :: ys) = (c :: l) :: ls := by
  simp only [splitLines, h]
  rw [if_neg hc]

theorem splitLines_append (xs ys : List Char) (h : '\n' ∉ xs) :
    splitLines (xs ++ '\n' :: ys) = xs :: splitLines ys := by
  induction xs with
  | nil => simpa using splitLines_cons_newline ys
  | cons c cs ih =>
    have hc : c ≠ '\n' := fun hq => h (hq ▸ List.mem_cons_self _ _)
    have h' : '\n' ∉ cs := fun hm => h (List.mem_cons_of_mem _ hm)
    rw [List.cons_append, splitLines_cons_other hc (ih h')]

theorem splitLines_of_no_newline (xs : List Char) (h : '\n' ∉ xs) :
    splitLines xs = [xs] := by
  induction xs with
  | nil => rfl
  | cons c cs ih =>
    have hc : c ≠ '\n' := fun hq => h (hq ▸ List.mem_cons_self _ _)
    have h' : '\n' ∉ cs := fun hm => h (List.mem_cons_of_mem _ hm)
    rw [splitLines_cons_other hc (ih h')]

theorem splitLines_mem_no_newline (cs : List Char) :
    ∀ l ∈ splitLines cs, '\n' ∉ l := by
  induction cs with
  | nil =>
    intro l hl
    simp only [splitLines, List.mem_singleton] at hl
    subst hl; simp
  | cons c rest ih =>
    intro l hl
    obtain ⟨p, ps, h⟩ : ∃ p ps, splitLines rest = p :: ps := by
      cases hsp : splitLines rest with
      | nil => exact absurd hsp (splitLines_ne_nil rest)
      | cons p ps => exact ⟨p, ps, rfl⟩
    by_cases hc : c = '\n'
    · subst hc
      rw [splitLines_cons_newline] at hl
      rcases List.mem_cons.mp hl with rfl | hl'
      · simp
      · exact ih l hl'
    · rw [splitLines_cons_other hc h] at hl
      rcases List.mem_cons.mp hl with rfl | hl'
      · intro hmem
        rcases List.mem_cons.mp hmem with hq | hq
        · exact hc hq.symm
        · exact ih p (h ▸ List.mem_cons_self _ _) hq
      · exact ih l (h ▸ List.mem_cons_of_mem _ hl')

/-! ### Auxiliary lemmas: the entry regexp -/

theorem exists_getLast? {α : Type} (l : List α) (h : l ≠ []) :
    ∃ a, l.getLast? = some a ∧ a ∈ l := by
  induction l with
  | nil => exact absurd rfl h
  | cons c cs ih =>
    by_cases hcs : cs = []
    · subst hcs; exact ⟨c, rfl, by simp⟩
    · obtain ⟨a, ha, hm⟩ := ih hcs
      refine ⟨a, ?_, List.mem_cons_of_mem _ hm⟩
      rw [show c :: cs = [c] ++ cs from rfl, List.getLast?_append_of_ne_nil _ hcs]
      exact ha

/-- Inversion for `wsName`: either the normal case (the captured name is
the remainder after the whitespace run, non-empty and free of line
terminators), or the remainder was all whitespace. -/
theorem wsName_some {s nm : List Char} (h : wsName s = some nm) :
    (nm = s.dropWhile isJsWS ∧ nm ≠ [] ∧ nm.any isLineTerm = false) ∨
    (s ≠ [] ∧ ∀ a ∈ s, isJsWS a = true) := by
  unfold wsName at h
  by_cases hws : (s.takeWhile isJsWS).isEmpty
  · rw [if_pos hws] at h; simp at h
  · rw [if_neg hws] at h
    by_cases hr : (s.dropWhile isJsWS).isEmpty
    · rw [if_pos hr] at h
      right
      refine ⟨?_, List.dropWhile_eq_nil_iff.mp (List.isEmpty_iff.mp hr)⟩
      rintro rfl
      simp at hws
    · rw [if_neg hr] at h
      by_cases hlt : (s.dropWhile isJsWS).any isLineTerm = true
      · rw [if_pos hlt] at h; simp at h
      · rw [if_neg hlt] at h
        left
        obtain rfl := Option.some.inj h
        exact ⟨rfl, by simpa [List.isEmpty_iff] using hr,
          Bool.eq_false_iff.mpr hlt⟩

theorem wsName_cons_space {nm : List Char} (hne : nm ≠ [])
    (hlead : ∀ a, nm.head? = some a → isJsWS a = false)
    (hterm : ∀ a ∈ nm, isLineTerm a = false) :
    wsName (' ' :: nm) = some nm := by
  have htw : nm.takeWhile isJsWS = [] := by
    cases nm with
    | nil => rfl
    | cons a t => exact List.takeWhile_cons_of_neg (by simp [hlead a rfl])
  have hdw : nm.dropWhile isJsWS = nm := dropWhile_eq_self_of_head hlead
  have hany : nm.any isLineTerm = false :=
    List.any_eq_false.mpr (fun x hx => by simp [hterm x hx])
  unfold wsName
  simp only [List.takeWhile_cons_of_pos (by decide : isJsWS ' ' = true), htw,
    List.dropWhile_cons_of_pos (by decide : isJsWS ' ' = true), hdw]
  rw [if_neg (by simp), if_neg (by simpa [List.isEmpty_iff] using hne),
    if_neg (by simp [hany])]

/-- Inversion for `matchEntry` on a line with no trailing whitespace (the
parser always applies it to a trimmed line): the count is non-negative,
and the captured name is non-empty, has no leading or trailing
whitespace, and consists of characters of the line. -/
theorem matchEntry_some_inv {cs : List Char} {c : ℤ} {nm : List Char}
    (hlast : ∀ a, cs.getLast? = some a → isJsWS a = false)
    (h : matchEntry cs = some (c, nm)) :
    0 ≤ c ∧ nm ≠ [] ∧
    (∀ a, nm.head? = some a → isJsWS a = false) ∧
    (∀ a, nm.getLast? = some a → isJsWS a = false) ∧
    (∀ a ∈ nm, a ∈ cs) ∧
    (∀ a ∈ nm, isLineTerm a = false) := by
  simp only [matchEntry] at h
  by_cases hd : (cs.takeWhile isDigitCh).isEmpty
  · rw [if_pos hd] at h; simp at h
  · rw [if_neg hd] at h
    -- the digits and the remainder
    have hsplit : cs.takeWhile isDigitCh ++ cs.dropWhile isDigitCh = cs :=
      List.takeWhile_append_dropWhile ..
    have hcount : 0 ≤ parseIntDigits (cs.takeWhile isDigitCh) :=
      parseIntDigits_nonneg (fun a ha => List.mem_takeWhile_imp ha)
    -- analyse entryBody
    rcases hrest : cs.dropWhile isDigitCh with _ | ⟨r0, r⟩
    · rw [hrest] at h; simp [entryBody] at h
    · rw [hrest] at h
      -- the "all whitespace" case of wsName contradicts hlast; factor it out
      have habs : ∀ s : List Char, s ≠ [] → (∀ a ∈ s, isJsWS a = true) →
          s.getLast? = (r0 :: r).getLast? → False := by
        intro s hs hall hlast'
        obtain ⟨a, ha, hmem⟩ := exists_getLast? s hs
        have hcs : cs.getLast? = some a := by
          rw [← hsplit, hrest,
            List.getLast?_append_of_ne_nil _ (List.cons_ne_nil r0 r), ← hlast', ha]
        have h1 := hall a hmem
        rw [hlast a hcs] at h1
        exact Bool.false_ne_true h1
      -- the good case of wsName, shared by both branches of entryBody
      have hgood : ∀ s nm0 : List Char, wsName s = some nm0 →
          s.getLast? = (r0 :: r).getLast? →
          (∀ a ∈ s, a ∈ r0 :: r) →
          nm0 ≠ [] ∧
          (∀ a, nm0.head? = some a → isJsWS a = false) ∧
          (∀ a, nm0.getLast? = some a → isJsWS a = false) ∧
          (∀ a ∈ nm0, a ∈ cs) ∧ trimL nm0 = nm0 ∧
          (∀ a ∈ nm0, isLineTerm a = false) := by
        intro s nm0 hw hlast' hmem
        rcases wsName_some hw with ⟨rfl, hne, hanyf⟩ | ⟨hs, hall⟩
        · have hh : ∀ a, (s.dropWhile isJsWS).head? = some a → isJsWS a = false :=
            fun a ha => dropWhile_head?_not ha
          have hgl : (s.dropWhile isJsWS).getLast? = s.getLast? := by
            conv_rhs => rw [← List.takeWhile_append_dropWhile isJsWS s]
            rw [List.getLast?_append_of_ne_nil _ hne]
          have hlg : ∀ a, (s.dropWhile isJsWS).getLast? = some a → isJsWS a = false := by
            intro a ha
            apply hlast
            rw [← hsplit, hrest,
              List.getLast?_append_of_ne_nil _ (List.cons_ne_nil r0 r), ← hlast', ← hgl, ha]
          refine ⟨hne, hh, hlg, ?_, trimL_eq_self hh hlg,
            fun a ha => Bool.eq_false_iff.mpr (List.any_eq_false.mp hanyf a ha)⟩
          intro a ha
          have : a ∈ s := (List.dropWhile_sublist _).subset ha
          rw [← hsplit, hrest]
          exact List.mem_append_right _ (hmem a this)
        · exact absurd (habs s hs hall hlast') not_false
      by_cases hx : r0 = 'x'
      · subst hx
        simp only [entryBody, if_pos rfl] at h
        rcases hw : wsName r with _ | nm0
        · rw [hw] at h; simp at h
        · rw [hw] at h
          simp at h
          obtain ⟨hc, hnm⟩ := h
          by_cases hrnil : r = []
          · subst hrnil
            rw [show wsName ([] : List Char) = none from rfl] at hw
            exact Option.noConfusion hw
          · obtain ⟨hne, hh, hlg, hsub, htr, hterm⟩ := hgood r nm0 hw
              (by rw [show ('x' : Char) :: r = ['x'] ++ r from rfl,
                List.getLast?_append_of_ne_nil _ hrnil])
              (fun a ha => List.mem_cons_of_mem _ ha)
            subst hc
            rw [← hnm, htr]
            exact ⟨hcount, hne, hh, hlg, hsub, hterm⟩
      · simp only [entryBody, if_neg hx] at h
        rcases hw : wsName (r0 :: r) with _ | nm0
        · rw [hw] at h; simp at h
        · rw [hw] at h
          simp at h
          obtain ⟨hc, hnm⟩ := h
          obtain ⟨hne, hh, hlg, hsub, htr, hterm⟩ := hgood (r0 :: r) nm0 hw rfl
            (fun a ha => ha)
          subst hc
          rw [← hnm, htr]
          exact ⟨hcount, hne, hh, hlg, hsub, hterm⟩

/-! ### Auxiliary lemmas: the parser loop -/

theorem explCollect_preserves (st : PState) (m : Option (ℤ × List Char))
    (t : List Char) :
    (explCollect st m t).deck = st.deck ∧
    (explCollect st m t).sideboard = st.sideboard ∧
    (explCollect st m t).currentSection = st.currentSection := by
  simp only [explCollect]
  split <;> split <;> exact ⟨rfl, rfl, rfl⟩

theorem processLine_header_deck (st : PState) (l : List Char)
    (h : toLowerL (trimL l) = "deck".data) :
    processLine st l = { st with currentSection := some Sect.deck } := by
  unfold processLine
  rw [if_pos h]

theorem processLine_header_sideboard (st : PState) (l : List Char)
    (h1 : toLowerL (trimL l) ≠ "deck".data)
    (h2 : toLowerL (trimL l) = "sideboard".data) :
    processLine st l = { st with currentSection := some Sect.sideboard } := by
  unfold processLine
  rw [if_neg h1, if_pos h2]

theorem processLine_entry_deck (st : PState) (l : List Char) {c : ℤ}
    {nm : List Char}
    (h1 : toLowerL (trimL l) ≠ "deck".data)
    (h2 : toLowerL (trimL l) ≠ "sideboard".data)
    (hme : matchEntry (trimL l) = some (c, nm))
    (hcs : st.currentSection = some Sect.deck) :
    processLine st l = { st with deck := st.deck ++ [⟨c, ⟨nm⟩⟩] } := by
  unfold processLine
  rw [if_neg h1, if_neg h2, hme, hcs]

theorem processLine_entry_sideboard (st : PState) (l : List Char) {c : ℤ}
    {nm : List Char}
    (h1 : toLowerL (trimL l) ≠ "deck".data)
    (h2 : toLowerL (trimL l) ≠ "sideboard".data)
    (hme : matchEntry (trimL l) = some (c, nm))
    (hcs : st.currentSection = some Sect.sideboard) :
    processLine st l = { st with sideboard := st.sideboard ++ [⟨c, ⟨nm⟩⟩] } := by
  unfold processLine
  rw [if_neg h1, if_neg h2, hme, hcs]

theorem processLine_fallthrough_none (st : PState) (l : List Char)
    (h1 : toLowerL (trimL l) ≠ "deck".data)
    (h2 : toLowerL (trimL l) ≠ "sideboard".data)
    (hme : matchEntry (trimL l) = none) :
    processLine st l = explCollect st none (trimL l) := by
  unfold processLine
  rw [if_neg h1, if_neg h2, hme]

theorem processLine_fallthrough_nosec (st : PState) (l : List Char)
    (h1 : toLowerL (trimL l) ≠ "deck".data)
    (h2 : toLowerL (trimL l) ≠ "sideboard".data)
    (hcs : st.currentSection = none) :
    processLine st l = explCollect st (matchEntry (trimL l)) (trimL l) := by
  unfold processLine
  rw [if_neg h1, if_neg h2, hcs]
  rcases matchEntry (trimL l) with _ | ⟨c, nm⟩ <;> rfl

/-- Every step of the loop has one of four effects: switch to the Deck
section (on a `deck` header), switch to the Sideboard section, append one
entry to the current section's list, or leave the deck, sideboard and
section untouched. -/
theorem processLine_shape (st : PState) (l : List Char) :
    (toLowerL (trimL l) = "deck".data ∧
      processLine st l = { st with currentSection := some Sect.deck }) ∨
    (toLowerL (trimL l) = "sideboard".data ∧
      processLine st l = { st with currentSection := some Sect.sideboard }) ∨
    (∃ c nm, matchEntry (trimL l) = some (c, nm) ∧
      ((st.currentSection = some Sect.deck ∧
        processLine st l = { st with deck := st.deck ++ [⟨c, ⟨nm⟩⟩] }) ∨
       (st.currentSection = some Sect.sideboard ∧
        processLine st l = { st with sideboard := st.sideboard ++ [⟨c, ⟨nm⟩⟩] }))) ∨
    ((processLine st l).deck = st.deck ∧
     (processLine st l).sideboard = st.sideboard ∧
     (processLine st l).currentSection = st.currentSection) := by
  by_cases h1 : toLowerL (trimL l) = "deck".data
  · exact Or.inl ⟨h1, processLine_header_deck st l h1⟩
  by_cases h2 : toLowerL (trimL l) = "sideboard".data
  · exact Or.inr (Or.inl ⟨h2, processLine_header_sideboard st l h1 h2⟩)
  rcases hme : matchEntry (trimL l) with _ | ⟨c, nm⟩
  · rw [processLine_fallthrough_none st l h1 h2 hme]
    exact Or.inr (Or.inr (Or.inr (explCollect_preserves ..)))
  · rcases hcs : st.currentSection with _ | s
    · rw [processLine_fallthrough_nosec st l h1 h2 hcs, hme]
      have hp := explCollect_preserves st (some (c, nm)) (trimL l)
      exact Or.inr (Or.inr (Or.inr ⟨hp.1, hp.2.1, by rw [hp.2.2]; exact hcs⟩))
    · cases s
      · exact Or.inr (Or.inr (Or.inl ⟨c, nm, rfl,
          Or.inl ⟨rfl, by rw [← hcs]; exact processLine_entry_deck st l h1 h2 hme hcs⟩⟩))
      · exact Or.inr (Or.inr (Or.inl ⟨c, nm, rfl,
          Or.inr ⟨rfl, by rw [← hcs]; exact processLine_entry_sideboard st l h1 h2 hme hcs⟩⟩))

theorem processLine_no_deck (st : PState) (l : List Char)
    (hl : toLowerL (trimL l) ≠ "deck".data)
    (hs : st.currentSection ≠ some Sect.deck) (hd : st.deck = []) :
    (processLine st l).deck = [] ∧
    (processLine st l).currentSection ≠ some Sect.deck := by
  rcases processLine_shape st l with ⟨h, _⟩ | ⟨_, heq⟩ |
    ⟨c, nm, hme, ⟨hcs, _⟩ | ⟨hcs, heq⟩⟩ | ⟨hq1, hq2, hq3⟩
  · exact absurd h hl
  · rw [heq]; exact ⟨hd, by simp⟩
  · exact absurd hcs hs
  · rw [heq]; exact ⟨hd, hs⟩
  · exact ⟨hq1 ▸ hd, hq3 ▸ hs⟩

theorem foldl_no_deck (lines : List (List Char)) (st : PState)
    (hl : ∀ l ∈ lines, toLowerL (trimL l) ≠ "deck".data)
    (hs : st.currentSection ≠ some Sect.deck) (hd : st.deck = []) :
    (lines.foldl processLine st).deck = [] := by
  induction lines generalizing st with
  | nil => exact hd
  | cons l ls ih =>
    rw [List.foldl_cons]
    obtain ⟨g1, g2⟩ := processLine_no_deck st l (hl l (List.mem_cons_self _ _)) hs hd
    exact ih _ (fun x hx => hl x (List.mem_cons_of_mem _ hx)) g2 g1

theorem parseLines_some_inv {lines : List (List Char)} {d : ParsedDeck}
    (h : parseLines lines = some d) :
    d.deck = (lines.foldl processLine initState).deck ∧
    d.deck ≠ [] ∧
    (d.sideboard = none ∨
      ∃ sb, d.sideboard = some sb ∧ sb ≠ [] ∧
        sb = (lines.foldl processLine initState).sideboard) := by
  simp only [parseLines] at h
  by_cases he : (lines.foldl processLine initState).deck.isEmpty
  · rw [if_pos he] at h
    exact Option.noConfusion h
  · rw [if_neg he] at h
    obtain rfl := Option.some.inj h
    refine ⟨rfl, by simpa [List.isEmpty_iff] using he, ?_⟩
    by_cases hsb : (lines.foldl processLine initState).sideboard.length > 0
    · exact Or.inr ⟨_, if_pos hsb, List.length_pos.mp hsb, rfl⟩
    · exact Or.inl (if_neg hsb)

/-- **C3.** The parser returns the explicit "no deck" outcome iff zero
entries were collected into the deck list by the loop; in particular a
reply with no line that trims case-insensitively to `deck` fails, and a
successful parse always has a non-empty main deck. -/
theorem parseDeckList_noDeck (text : String) :
    (parseDeckList text = none ↔
      ((splitLines text.data).foldl processLine initState).deck = []) ∧
    ((∀ l ∈ splitLines text.data, toLowerL (trimL l) ≠ "deck".data) →
      parseDeckList text = none) ∧
    (∀ d, parseDeckList text = some d → d.deck ≠ []) := by
  have hiff : parseDeckList text = none ↔
      ((splitLines text.data).foldl processLine initState).deck = [] := by
    unfold parseDeckList
    simp only [parseLines]
    by_cases he : ((splitLines text.data).foldl processLine initState).deck.isEmpty
    · rw [if_pos he]
      simp [List.isEmpty_iff.mp he]
    · rw [if_neg he]
      constructor
      · intro h; exact Option.noConfusion h
      · intro h; exact absurd (List.isEmpty_iff.mpr h) he
  refine ⟨hiff, ?_, ?_⟩
  · intro hl
    exact hiff.mpr
      (foldl_no_deck (splitLines text.data) initState hl (by simp [initState]) rfl)
  · intro d hd
    exact (parseLines_some_inv hd).2.1

/-- Witness for C3 at a concrete reply with no `deck` line. -/
theorem parseDeckList_noDeck_witness :
    parseDeckList "Hello there\n3 Shock" = none :=
  (parseDeckList_noDeck "Hello there\n3 Shock").2.1 (by decide)

/-! ### The entry invariant of the parser -/

/-- Every entry the parser records is well-formed: non-negative count and
a non-empty, fully trimmed name free of newlines and of every
LineTerminator. -/
def goodEntry (e : DeckEntry) : Prop :=
  0 ≤ e.count ∧ e.name.data ≠ [] ∧
  (∀ a, e.name.data.head? = some a → isJsWS a = false) ∧
  (∀ a, e.name.data.getLast? = some a → isJsWS a = false) ∧
  '\n' ∉ e.name.data ∧
  (∀ a ∈ e.name.data, isLineTerm a = false)

theorem processLine_good (st : PState) (l : List Char) (hnl : '\n' ∉ l)
    (h1 : ∀ e ∈ st.deck, goodEntry e) (h2 : ∀ e ∈ st.sideboard, goodEntry e) :
    (∀ e ∈ (processLine st l).deck, goodEntry e) ∧
    (∀ e ∈ (processLine st l).sideboard, goodEntry e) := by
  have hnew : ∀ (c : ℤ) (nm : List Char), matchEntry (trimL l) = some (c, nm) →
      goodEntry ⟨c, ⟨nm⟩⟩ := by
    intro c nm hme
    obtain ⟨hc, hne, hh, hlg, hsub, hterm⟩ :=
      matchEntry_some_inv (fun a ha => trimL_getLast? ha) hme
    exact ⟨hc, hne, hh, hlg, fun hmem => hnl (trimL_sub (hsub _ hmem)), hterm⟩
  rcases processLine_shape st l with ⟨_, heq⟩ | ⟨_, heq⟩ |
    ⟨c, nm, hme, ⟨_, heq⟩ | ⟨_, heq⟩⟩ | ⟨hq1, hq2, _⟩
  · rw [heq]; exact ⟨h1, h2⟩
  · rw [heq]; exact ⟨h1, h2⟩
  · rw [heq]
    refine ⟨?_, h2⟩
    intro e he
    rcases List.mem_append.mp he with he | he
    · exact h1 e he
    · rw [List.mem_singleton] at he; subst he; exact hnew c nm hme
  · rw [heq]
    refine ⟨h1, ?_⟩
    intro e he
    rcases List.mem_append.mp he with he | he
    · exact h2 e he
    · rw [List.mem_singleton] at he; subst he; exact hnew c nm hme
  · exact ⟨fun e he => h1 e (hq1 ▸ he), fun e he => h2 e (hq2 ▸ he)⟩

theorem foldl_good (lines : List (List Char)) (st : PState)
    (hl : ∀ l ∈ lines, '\n' ∉ l)
    (h1 : ∀ e ∈ st.deck, goodEntry e) (h2 : ∀ e ∈ st.sideboard, goodEntry e) :
    (∀ e ∈ (lines.foldl processLine st).deck, goodEntry e) ∧
    (∀ e ∈ (lines.foldl processLine st).sideboard, goodEntry e) := by
  induction lines generalizing st with
  | nil => exact ⟨h1, h2⟩
  | cons l ls ih =>
    rw [List.foldl_cons]
    obtain ⟨g1, g2⟩ := processLine_good st l (hl l (List.mem_cons_self _ _)) h1 h2
    exact ih _ (fun x hx => hl x (List.mem_cons_of_mem _ hx)) g1 g2

theorem parseDeckList_good {text : String} {d : ParsedDeck}
    (h : parseDeckList text = some d) :
    (∀ e ∈ d.deck, goodEntry e) ∧ (∀ e ∈ d.sideboard.getD [], goodEntry e) ∧
    d.deck ≠ [] ∧ d.sideboard ≠ some [] := by
  have h' : parseLines (splitLines text.data) = some d := h
  obtain ⟨hdeck, hne, hsb⟩ := parseLines_some_inv h'
  obtain ⟨g1, g2⟩ := foldl_good (splitLines text.data) initState
    (fun l hl => splitLines_mem_no_newline _ l hl)
    (by simp [initState]) (by simp [initState])
  refine ⟨fun e he => g1 e (hdeck ▸ he), ?_, hne, ?_⟩
  · rcases hsb with h0 | ⟨sb, hsome, hsbne, hsbe⟩
    · simp [h0]
    · rw [hsome]
      exact fun e he => g2 e (hsbe ▸ he)
  · rcases hsb with h0 | ⟨sb, hsome, hsbne, _⟩
    · rw [h0]; simp
    · rw [hsome]; simpa using hsbne

/-- **C7** (amended): every count the parser records — main deck or
sideboard — is a *non-negative* integer; a count of zero is possible. -/
theorem parseDeckList_counts_nonneg (text : String) (d : ParsedDeck)
    (h : parseDeckList text = some d) :
    (∀ e ∈ d.deck, 0 ≤ e.count) ∧ (∀ e ∈ d.sideboard.getD [], 0 ≤ e.count) := by
  obtain ⟨g1, g2, _, _⟩ := parseDeckList_good h
  exact ⟨fun e he => (g1 e he).1, fun e he => (g2 e he).1⟩

/-- **C7** counterexample: a `0 Mountain` line is recorded as an entry with
count 0, which is not a positive integer. -/
theorem parseDeckList_count_zero_counterexample :
    ∃ d, parseDeckList "Deck\n0 Mountain" = some d ∧
      ∃ e ∈ d.deck, ¬0 < e.count :=
  ⟨⟨[⟨0, "Mountain"⟩], none, ""⟩, by decide, ⟨0, "Mountain"⟩, by decide, by decide⟩

/-- Witness for the amended C7 at a concrete reply. -/
theorem parseDeckList_counts_nonneg_witness :
    parseDeckList "Deck\n3 Shock" = some ⟨[⟨3, "Shock"⟩], none, ""⟩ ∧
    (0 : ℤ) ≤ (DeckEntry.mk 3 "Shock").count :=
  ⟨by decide,
    (parseDeckList_counts_nonneg "Deck\n3 Shock" ⟨[⟨3, "Shock"⟩], none, ""⟩
      (by decide)).1 ⟨3, "Shock"⟩ (by decide)⟩

/-! ### C2: the parse scenario -/

/-- **C2** counterexample: the scenario reply does *not* parse with
explanation `"This deck is aggressive."` — that sentence follows the
Sideboard section, where the explanation trigger is disabled, so the
explanation comes out empty. -/
theorem parse_scenario_counterexample :
    parseDeckList
        "Deck\n4 Mountain\n2 Shock\n\nSideboard\n1 Negate\n\nThis deck is aggressive." ≠
      some ⟨[⟨4, "Mountain"⟩, ⟨2, "Shock"⟩], some [⟨1, "Negate"⟩],
        "This deck is aggressive."⟩ := by
  decide

/-- **C2** (amended): the scenario reply parses to the claimed main deck
and sideboard, but with an empty explanation. -/
theorem parse_scenario_amended :
    parseDeckList
        "Deck\n4 Mountain\n2 Shock\n\nSideboard\n1 Negate\n\nThis deck is aggressive." =
      some ⟨[⟨4, "Mountain"⟩, ⟨2, "Shock"⟩], some [⟨1, "Negate"⟩], ""⟩ := by
  decide

/-! ### C1: the color filter -/

theorem selection_empty_iff (sel : List String) :
    ((wubrgOf sel).isEmpty && !sel.contains "C") = true ↔ sel = [] := by
  constructor
  · intro h
    rw [Bool.and_eq_true] at h
    obtain ⟨h1, h2⟩ := h
    rw [List.isEmpty_iff] at h1
    cases sel with
    | nil => rfl
    | cons a t =>
      exfalso
      by_cases ha : a = "C"
      · subst ha
        simp [List.contains_cons] at h2
      · have hmem : a ∈ wubrgOf (a :: t) := by
          simp [wubrgOf, List.mem_filter, ha]
        rw [h1] at hmem
        simp at hmem
  · rintro rfl
    decide

/-- The body of the color-filter predicate, characterized. -/
theorem colorFilterPred_iff (card : Card) (sel : List String) :
    ((if jsIncludes card.typeLine "Basic Land" then true
      else if (wubrgOf sel).isEmpty && !sel.contains "C" then true
      else if card.colorIdentity.isEmpty then
        sel.contains "C" || (wubrgOf sel).isEmpty
      else card.colorIdentity.all (fun c => (wubrgOf sel).contains c)) = true) ↔
      (jsIncludes card.typeLine "Basic Land" = true ∨
       sel = [] ∨
       (card.colorIdentity = [] ∧
         (sel.contains "C" = true ∨ wubrgOf sel = [])) ∨
       (card.colorIdentity ≠ [] ∧
         ∀ c ∈ card.colorIdentity, c ∈ wubrgOf sel)) := by
  by_cases hbl : jsIncludes card.typeLine "Basic Land" = true
  · simp [hbl]
  · rw [if_neg hbl]
    by_cases hsel : sel = []
    · subst hsel
      rw [if_pos (selection_empty_iff [] |>.mpr rfl)]
      simp
    · have hcond : ((wubrgOf sel).isEmpty && !sel.contains "C") = false :=
        Bool.eq_false_iff.mpr (fun hq => hsel ((selection_empty_iff sel).mp hq))
      rw [if_neg (Bool.eq_false_iff.mp hcond)]
      by_cases hci : card.colorIdentity = []
      · rw [if_pos (by simp [hci])]
        constructor
        · intro h
          refine Or.inr (Or.inr (Or.inl ⟨hci, ?_⟩))
          rw [Bool.or_eq_true] at h
          rcases h with h | h
          · exact Or.inl h
          · exact Or.inr (List.isEmpty_iff.mp h)
        · rintro (h | h | ⟨_, h⟩ | ⟨hne, _⟩)
          · exact absurd h hbl
          · exact absurd h hsel
          · rw [Bool.or_eq_true]
            rcases h with h | h
            · exact Or.inl h
            · exact Or.inr (List.isEmpty_iff.mpr h)
          · exact absurd hci hne
      · rw [if_neg (by simpa [List.isEmpty_iff] using hci)]
        simp only [List.all_eq_true]
        have hc : ∀ c : String, (wubrgOf sel).contains c = true ↔ c ∈ wubrgOf sel :=
          fun c => List.elem_iff
        constructor
        · intro h
          refine Or.inr (Or.inr (Or.inr ⟨hci, fun c hc' => (hc c).mp (h c hc')⟩))
        · rintro (h | h | ⟨h, _⟩ | ⟨_, h⟩)
          · exact absurd h hbl
          · exact absurd h hsel
          · exact absurd h hci
          · exact fun c hc' => (hc c).mpr (h c hc')

/-- **C1.** A name with a catalog record is in the filtered list iff it
is in `cardNames` and: its type line marks a basic land, or the selection
is empty, or it is colorless and (the colorless marker is selected or the
selection minus the marker is empty), or its color identity is non-empty
and every symbol of it is in the selection minus the colorless marker. -/
theorem getFilteredCardList_mem_iff (cat : Catalog) (sel : List String)
    (name : String) (card : Card) (hcard : cat.cardDataMap name = some card) :
    name ∈ getFilteredCardList cat sel ↔
      name ∈ cat.cardNames ∧
        (jsIncludes card.typeLine "Basic Land" = true ∨
         sel = [] ∨
         (card.colorIdentity = [] ∧
           (sel.contains "C" = true ∨ wubrgOf sel = [])) ∨
         (card.colorIdentity ≠ [] ∧
           ∀ c ∈ card.colorIdentity, c ∈ wubrgOf sel)) := by
  unfold getFilteredCardList
  rw [List.mem_filter]
  refine and_congr_right fun _ => ?_
  simp only [hcard]
  exact colorFilterPred_iff card sel

def sampleCard : Card := ⟨["R"], "Instant", "{R}", 1, "common", "", []⟩

def sampleCatalog : Catalog :=
  ⟨["Shock"], fun n => if n = "Shock" then some sampleCard else none⟩

/-- Witness for C1 on a concrete catalog and selection. -/
theorem getFilteredCardList_mem_iff_witness :
    sampleCatalog.cardDataMap "Shock" = some sampleCard ∧
    ("Shock" ∈ getFilteredCardList sampleCatalog ["R"] ↔
      "Shock" ∈ sampleCatalog.cardNames ∧
        (jsIncludes sampleCard.typeLine "Basic Land" = true ∨
         ["R"] = ([] : List String) ∨
         (sampleCard.colorIdentity = [] ∧
           ((["R"] : List String).contains "C" = true ∨ wubrgOf ["R"] = [])) ∨
         (sampleCard.colorIdentity ≠ [] ∧
           ∀ c ∈ sampleCard.colorIdentity, c ∈ wubrgOf ["R"]))) :=
  ⟨by decide,
    getFilteredCardList_mem_iff sampleCatalog ["R"] "Shock" sampleCard (by decide)⟩

/-! ### C8: type classification -/

/-- **C8** counterexample: a type line containing both `Battle` and `Land`
is classified as `Land`, not `Battle` — the code tests `Land` first. -/
theorem baseTypeOf_battle_land_counterexample :
    jsIncludes "Battle Land" "Battle" = true ∧
    jsIncludes "Battle Land" "Land" = true ∧
    baseTypeOf "Battle Land" = "Land" ∧ ("Land" : String) ≠ "Battle" := by
  decide

/-- **C8** (amended): the classification is first-match-wins over the
ordered keyword list Creature, Instant, Sorcery, Enchantment, Artifact,
Planeswalker, **Land, Battle** (with `Land` before `Battle`), default
category `Other`. -/
theorem baseTypeOf_eq_firstMatch (tl : String) :
    baseTypeOf tl =
      firstMatchCategory
        ["Creature", "Instant", "Sorcery", "Enchantment", "Artifact",
         "Planeswalker", "Land", "Battle"] tl := by
  unfold baseTypeOf firstMatchCategory
  by_cases h1 : jsIncludes tl "Creature" = true
  · simp [List.find?_cons, h1]
  by_cases h2 : jsIncludes tl "Instant" = true
  · simp [List.find?_cons, h1, h2]
  by_cases h3 : jsIncludes tl "Sorcery" = true
  · simp [List.find?_cons, h1, h2, h3]
  by_cases h4 : jsIncludes tl "Enchantment" = true
  · simp [List.find?_cons, h1, h2, h3, h4]
  by_cases h5 : jsIncludes tl "Artifact" = true
  · simp [List.find?_cons, h1, h2, h3, h4, h5]
  by_cases h6 : jsIncludes tl "Planeswalker" = true
  · simp [List.find?_cons, h1, h2, h3, h4, h5, h6]
  by_cases h7 : jsIncludes tl "Land" = true
  · simp [List.find?_cons, h1, h2, h3, h4, h5, h6, h7]
  by_cases h8 : jsIncludes tl "Battle" = true
  · simp [List.find?_cons, h1, h2, h3, h4, h5, h6, h7, h8]
  · simp [List.find?_cons, h1, h2, h3, h4, h5, h6, h7, h8]

/-! ### C10: the proxy payload -/

/-- **C10** counterexample: a request with `max_tokens = 0` (present, but
falsy in JavaScript) is forwarded with the 4000 default rather than
`min 0 8000 = 0`. -/
theorem buildPayload_zero_counterexample :
    acceptsRequest ⟨some [⟨"user", "hi"⟩], none, none, some 0⟩ = true ∧
    (buildPayload ⟨some [⟨"user", "hi"⟩], none, none, some 0⟩).max_tokens = 4000 ∧
    (buildPayload ⟨some [⟨"user", "hi"⟩], none, none, some 0⟩).max_tokens ≠
      min 0 8000 := by
  decide

/-- **C10** (amended): for every accepted body, the forwarded
`max_tokens` is `min(requested, 8000)` when a non-zero value is present
and 4000 when the field is absent or zero; it never exceeds 8000; and
`model`/`temperature` default to `"gpt-4o"`/`0.7` when absent. -/
theorem buildPayload_spec (b : ChatRequest) (_hacc : acceptsRequest b = true) :
    ((b.max_tokens = none ∨ b.max_tokens = some 0) →
      (buildPayload b).max_tokens = 4000) ∧
    (∀ t : ℤ, b.max_tokens = some t → t ≠ 0 →
      (buildPayload b).max_tokens = min t 8000) ∧
    (buildPayload b).max_tokens ≤ 8000 ∧
    (b.model = none → (buildPayload b).model = "gpt-4o") ∧
    (b.temperature = none → (buildPayload b).temperature = 7 / 10) := by
  refine ⟨?_, ?_, ?_, ?_, ?_⟩
  · rintro (h | h) <;> simp [buildPayload, h]
  · intro t ht hne
    simp [buildPayload, ht, hne]
  · exact min_le_right _ _
  · intro h; simp [buildPayload, h]
  · intro h; simp [buildPayload, h]

/-- Witness for the amended C10 at a concrete request body. -/
theorem buildPayload_spec_witness :
    acceptsRequest ⟨some [⟨"user", "hi"⟩], none, none, none⟩ = true ∧
    (buildPayload ⟨some [⟨"user", "hi"⟩], none, none, none⟩).max_tokens = 4000 ∧
    (buildPayload ⟨some [⟨"user", "hi"⟩], none, none, none⟩).model = "gpt-4o" ∧
    (buildPayload ⟨some [⟨"user", "hi"⟩], none, none, none⟩).temperature = 7 / 10 :=
  ⟨by decide,
   (buildPayload_spec _ (by decide)).1 (Or.inl rfl),
   (buildPayload_spec _ (by decide)).2.2.2.1 rfl,
   (buildPayload_spec _ (by decide)).2.2.2.2 rfl⟩

/-! ### Auxiliary lemmas: statistics -/

theorem statStep_none (lookup : String → Option Card) (st : Stats) (e : DeckEntry)
    (h : lookup e.name = none) :
    statStep lookup st e = { st with totalCards := st.totalCards + e.count } := by
  unfold statStep
  rw [h]

theorem statStep_some_land (lookup : String → Option Card) (st : Stats)
    (e : DeckEntry) (data : Card) (h : lookup e.name = some data)
    (hland : jsIncludes data.typeLine "Land" = true) :
    statStep lookup st e =
      { st with totalCards := st.totalCards + e.count,
                totalLands := st.totalLands + e.count } := by
  unfold statStep
  rw [h]
  simp [hland]

theorem statStep_some_nonland (lookup : String → Option Card) (st : Stats)
    (e : DeckEntry) (data : Card) (h : lookup e.name = some data)
    (hland : jsIncludes data.typeLine "Land" = false) :
    statStep lookup st e =
      { st with
          totalCards := st.totalCards + e.count,
          totalCreatures := st.totalCreatures +
            (if jsIncludes data.typeLine "Creature" then e.count else 0),
          totalSpells := st.totalSpells +
            (if jsIncludes data.typeLine "Creature" then 0 else e.count),
          manaCurve := fun k =>
            if k = (if 7 ≤ min ⌊data.cmc⌋ 7 then "7+"
                    else jsIntToString (min ⌊data.cmc⌋ 7))
            then st.manaCurve k + e.count else st.manaCurve k } := by
  unfold statStep
  rw [h]
  by_cases hcre : jsIncludes data.typeLine "Creature" = true <;> simp [hland, hcre]

/-- The label computed for a non-land card lands in one of the eight
display buckets whenever the cmc is non-negative. -/
theorem codeLabel_mem {q : ℚ} (h : 0 ≤ q) :
    (if 7 ≤ min ⌊q⌋ 7 then "7+" else jsIntToString (min ⌊q⌋ 7)) ∈ curveBuckets := by
  have h0 : 0 ≤ ⌊q⌋ := Int.floor_nonneg.mpr h
  by_cases h7 : (7 : ℤ) ≤ ⌊q⌋
  · rw [if_pos (le_min_iff.mpr ⟨h7, le_refl 7⟩)]
    decide
  · push_neg at h7
    have hmin : min ⌊q⌋ 7 = ⌊q⌋ := min_eq_left (by omega)
    rw [hmin, if_neg (by omega)]
    have h6 : ⌊q⌋ ≤ 6 := by omega
    set b := ⌊q⌋ with hb
    interval_cases b <;> decide

theorem curveSum_update (f : String → ℤ) (label : String) (c : ℤ)
    (h : label ∈ curveBuckets) :
    (curveBuckets.map (fun k => if k = label then f k + c else f k)).sum =
      (curveBuckets.map f).sum + c := by
  fin_cases h <;>
    · simp [curveBuckets]
      ring

/-- The running identity behind C5: over the fold, the curve sum tracks
total cards minus total lands minus the counts of unrecognized entries. -/
theorem foldl_statStep_identity (lookup : String → Option Card)
    (deck : List DeckEntry) (st : Stats)
    (hcat : ∀ n data, lookup n = some data → 0 ≤ data.cmc) :
    curveSum (deck.foldl (statStep lookup) st)
      - (deck.foldl (statStep lookup) st).totalCards
      + (deck.foldl (statStep lookup) st).totalLands
      + ((deck.filter (fun e => (lookup e.name).isNone)).map DeckEntry.count).sum
    = curveSum st - st.totalCards + st.totalLands := by
  induction deck generalizing st with
  | nil => simp
  | cons e es ih =>
    rw [List.foldl_cons, List.filter_cons]
    cases hl : lookup e.name with
    | none =>
      rw [if_pos Option.isNone_none]
      have H := ih (statStep lookup st e)
      have r1 : curveSum (statStep lookup st e) = curveSum st := by
        rw [statStep_none lookup st e hl]; rfl
      have r2 : (statStep lookup st e).totalCards = st.totalCards + e.count := by
        rw [statStep_none lookup st e hl]
      have r3 : (statStep lookup st e).totalLands = st.totalLands := by
        rw [statStep_none lookup st e hl]
      rw [r1, r2, r3] at H
      simp only [List.map_cons, List.sum_cons]
      omega
    | some data =>
      rw [if_neg (by simp)]
      by_cases hland : jsIncludes data.typeLine "Land" = true
      · have H := ih (statStep lookup st e)
        have r1 : curveSum (statStep lookup st e) = curveSum st := by
          rw [statStep_some_land lookup st e data hl hland]; rfl
        have r2 : (statStep lookup st e).totalCards = st.totalCards + e.count := by
          rw [statStep_some_land lookup st e data hl hland]
        have r3 : (statStep lookup st e).totalLands = st.totalLands + e.count := by
          rw [statStep_some_land lookup st e data hl hland]
        rw [r1, r2, r3] at H
        omega
      · have hland2 : jsIncludes data.typeLine "Land" = false :=
          Bool.eq_false_iff.mpr hland
        have H := ih (statStep lookup st e)
        have r1 : curveSum (statStep lookup st e) = curveSum st + e.count := by
          rw [statStep_some_nonland lookup st e data hl hland2]
          exact curveSum_update st.manaCurve _ e.count
            (codeLabel_mem (hcat _ data hl))
        have r2 : (statStep lookup st e).totalCards = st.totalCards + e.count := by
          rw [statStep_some_nonland lookup st e data hl hland2]
        have r3 : (statStep lookup st e).totalLands = st.totalLands := by
          rw [statStep_some_nonland lookup st e data hl hland2]
        rw [r1, r2, r3] at H
        omega

/-- **C5** counterexample: a deck consisting of one unrecognized entry
has curve sum 0 but `totalCards - totalLands = 2`. -/
theorem curve_sum_counterexample :
    curveSum (computeDeckStats [⟨2, "Mystery"⟩] (fun _ => none)) ≠
      (computeDeckStats [⟨2, "Mystery"⟩] (fun _ => none)).totalCards -
      (computeDeckStats [⟨2, "Mystery"⟩] (fun _ => none)).totalLands := by
  decide

/-- **C5** (amended): for catalogs whose cards have non-negative cmc, the
sum of the mana-curve histogram over the 8 buckets equals
`totalCards - totalLands` **minus the total count of unrecognized
entries**. -/
theorem curve_sum_identity (deck : List DeckEntry)
    (lookup : String → Option Card)
    (hcat : ∀ n data, lookup n = some data → 0 ≤ data.cmc) :
    curveSum (computeDeckStats deck lookup) =
      (computeDeckStats deck lookup).totalCards -
      (computeDeckStats deck lookup).totalLands -
      ((computeDeckStats deck lookup).unrecognized.map DeckEntry.count).sum := by
  have H := foldl_statStep_identity lookup deck initStats hcat
  have e1 : curveSum (computeDeckStats deck lookup) =
      curveSum (deck.foldl (statStep lookup) initStats) := rfl
  have e2 : (computeDeckStats deck lookup).totalCards =
      (deck.foldl (statStep lookup) initStats).totalCards := rfl
  have e3 : (computeDeckStats deck lookup).totalLands =
      (deck.foldl (statStep lookup) initStats).totalLands := rfl
  have e4 : (computeDeckStats deck lookup).unrecognized =
      deck.filter (fun e => (lookup e.name).isNone) := rfl
  have hinit1 : curveSum initStats = 0 := rfl
  have hinit2 : initStats.totalCards = 0 := rfl
  have hinit3 : initStats.totalLands = 0 := rfl
  rw [e1, e2, e3, e4]
  omega

def shockCard : Card := ⟨["R"], "Instant", "{R}", 1, "common", "", []⟩

def mountainCard : Card := ⟨["R"], "Basic Land - Mountain", "", 0, "common", "", []⟩

def sampleLookup : String → Option Card := fun n =>
  if n = "Shock" then some shockCard
  else if n = "Mountain" then some mountainCard
  else none

theorem sampleLookup_cmc_nonneg :
    ∀ n data, sampleLookup n = some data → 0 ≤ data.cmc := by
  intro n data h
  unfold sampleLookup at h
  split at h
  · obtain rfl := Option.some.inj h; decide
  · split at h
    · obtain rfl := Option.some.inj h; decide
    · exact Option.noConfusion h

/-- Witness for the amended C5 on a concrete deck and catalog. -/
theorem curve_sum_identity_witness :
    curveSum (computeDeckStats [⟨4, "Shock"⟩, ⟨20, "Mountain"⟩, ⟨2, "Mystery"⟩]
        sampleLookup) =
      (computeDeckStats [⟨4, "Shock"⟩, ⟨20, "Mountain"⟩, ⟨2, "Mystery"⟩]
        sampleLookup).totalCards -
      (computeDeckStats [⟨4, "Shock"⟩, ⟨20, "Mountain"⟩, ⟨2, "Mystery"⟩]
        sampleLookup).totalLands -
      (((computeDeckStats [⟨4, "Shock"⟩, ⟨20, "Mountain"⟩, ⟨2, "Mystery"⟩]
        sampleLookup).unrecognized).map DeckEntry.count).sum :=
  curve_sum_identity _ sampleLookup sampleLookup_cmc_nonneg

theorem foldl_statStep_totalCards (lookup : String → Option Card)
    (deck : List DeckEntry) (st : Stats) :
    (deck.foldl (statStep lookup) st).totalCards =
      st.totalCards + (deck.map DeckEntry.count).sum := by
  induction deck generalizing st with
  | nil => simp
  | cons e es ih =>
    rw [List.foldl_cons, ih]
    have hstep : (statStep lookup st e).totalCards = st.totalCards + e.count := by
      cases hl : lookup e.name with
      | none => rw [statStep_none lookup st e hl]
      | some data =>
        by_cases hland : jsIncludes data.typeLine "Land" = true
        · rw [statStep_some_land lookup st e data hl hland]
        · rw [statStep_some_nonland lookup st e data hl
            (Bool.eq_false_iff.mpr hland)]
    rw [hstep]
    simp only [List.map_cons, List.sum_cons]
    ring

/-- **C6.** `totalCards` is the sum of the counts over all main-deck
entries, including entries absent from the catalog; absent entries appear
in the `unrecognized` list. -/
theorem computeDeckStats_totals (deck : List DeckEntry)
    (lookup : String → Option Card) :
    (computeDeckStats deck lookup).totalCards = (deck.map DeckEntry.count).sum ∧
    ∀ e ∈ deck, lookup e.name = none →
      e ∈ (computeDeckStats deck lookup).unrecognized := by
  constructor
  · have e2 : (computeDeckStats deck lookup).totalCards =
        (deck.foldl (statStep lookup) initStats).totalCards := rfl
    rw [e2, foldl_statStep_totalCards]
    have : initStats.totalCards = 0 := rfl
    omega
  · intro e he hn
    have e4 : (computeDeckStats deck lookup).unrecognized =
        deck.filter (fun e => (lookup e.name).isNone) := rfl
    rw [e4, List.mem_filter]
    exact ⟨he, by simp [hn]⟩

/-- Witness for C6 on a concrete deck with an unrecognized entry. -/
theorem computeDeckStats_totals_witness :
    (computeDeckStats [⟨4, "Shock"⟩, ⟨2, "Mystery"⟩] sampleLookup).totalCards =
      (([⟨4, "Shock"⟩, ⟨2, "Mystery"⟩] : List DeckEntry).map DeckEntry.count).sum ∧
    (⟨2, "Mystery"⟩ : DeckEntry) ∈
      (computeDeckStats [⟨4, "Shock"⟩, ⟨2, "Mystery"⟩] sampleLookup).unrecognized :=
  ⟨(computeDeckStats_totals _ sampleLookup).1,
   (computeDeckStats_totals _ sampleLookup).2 ⟨2, "Mystery"⟩ (by decide) (by decide)⟩

/-! ### C9: the mana-curve bucket -/

/-- The bucket key as the specification words it: `floor(cmc)`, with the
key `7+` for values of 7 or more. -/
def specBucketKey (q : ℚ) : String :=
  if 7 ≤ ⌊q⌋ then "7+" else jsIntToString ⌊q⌋

theorem code_label_eq_spec (q : ℚ) :
    (if 7 ≤ min ⌊q⌋ 7 then "7+" else jsIntToString (min ⌊q⌋ 7)) =
      specBucketKey q := by
  unfold specBucketKey
  by_cases h7 : (7 : ℤ) ≤ ⌊q⌋
  · rw [if_pos (le_min_iff.mpr ⟨h7, le_refl 7⟩), if_pos h7]
  · push_neg at h7
    rw [min_eq_left (by omega), if_neg (by omega)]

/-- **C9.** For a main-deck entry whose card is in the catalog and whose
type line does not contain `Land`, with non-negative cmc, the stats step
adds the entry's count to the bucket keyed by floor(cmc) clamped to
\[0,7] (`7+` for 7 or more) and leaves every other bucket unchanged; the
key is one of the eight display buckets. -/
theorem statStep_bucket (lookup : String → Option Card) (st : Stats)
    (e : DeckEntry) (data : Card)
    (h : lookup e.name = some data)
    (hland : jsIncludes data.typeLine "Land" = false)
    (hcmc : 0 ≤ data.cmc) :
    (statStep lookup st e).manaCurve (specBucketKey data.cmc) =
      st.manaCurve (specBucketKey data.cmc) + e.count ∧
    (∀ k, k ≠ specBucketKey data.cmc →
      (statStep lookup st e).manaCurve k = st.manaCurve k) ∧
    specBucketKey data.cmc ∈ curveBuckets := by
  have hmc := statStep_some_nonland lookup st e data h hland
  rw [code_label_eq_spec data.cmc] at hmc
  refine ⟨?_, ?_, ?_⟩
  · rw [hmc]; simp
  · intro k hk; rw [hmc]; simp [hk]
  · exact code_label_eq_spec data.cmc ▸ codeLabel_mem hcmc

/-- Witness for C9 at a concrete card and entry. -/
theorem statStep_bucket_witness :
    sampleLookup "Shock" = some shockCard ∧
    jsIncludes shockCard.typeLine "Land" = false ∧
    (0 : ℚ) ≤ shockCard.cmc ∧
    (statStep sampleLookup initStats ⟨4, "Shock"⟩).manaCurve
        (specBucketKey shockCard.cmc) =
      initStats.manaCurve (specBucketKey shockCard.cmc) + (4 : ℤ) :=
  ⟨by decide, by decide, by decide,
   (statStep_bucket sampleLookup initStats ⟨4, "Shock"⟩ shockCard
      (by decide) (by decide) (by decide)).1⟩

/-! ### Auxiliary lemmas: re-parsing rendered deck text (C4) -/

theorem takeWhile_append_not {p : Char → Bool} {xs : List Char} {y : Char}
    (r : List Char) (hxs : ∀ a ∈ xs, p a = true) (hy : p y = false) :
    (xs ++ y :: r).takeWhile p = xs ∧ (xs ++ y :: r).dropWhile p = y :: r := by
  induction xs with
  | nil =>
    constructor
    · exact List.takeWhile_cons_of_neg (by simp [hy])
    · exact List.dropWhile_cons_of_neg (by simp [hy])
  | cons x xs ih =>
    have hx := hxs x (List.mem_cons_self _ _)
    obtain ⟨ht, hd⟩ := ih (fun a ha => hxs a (List.mem_cons_of_mem _ ha))
    constructor
    · rw [List.cons_append, List.takeWhile_cons_of_pos hx, ht]
    · rw [List.cons_append, List.dropWhile_cons_of_pos hx, hd]

/-- The facts needed to re-parse one rendered `count name` line: the
count must be below 10^21, so that JavaScript renders it in plain
decimal notation rather than exponential notation. -/
theorem renderEntry_facts (e : DeckEntry) (hg : goodEntry e)
    (hlt : e.count < 10 ^ 21) :
    trimL (renderEntryChars e) = renderEntryChars e ∧
    matchEntry (trimL (renderEntryChars e)) = some (e.count, e.name.data) ∧
    toLowerL (trimL (renderEntryChars e)) ≠ "deck".data ∧
    toLowerL (trimL (renderEntryChars e)) ≠ "sideboard".data ∧
    '\n' ∉ renderEntryChars e := by
  obtain ⟨hc, hne, hlead, htrail, hnl, hterm⟩ := hg
  obtain ⟨hd1, hd2, hd3⟩ := natDecimal_spec e.count.toNat
  have hrend : renderEntryChars e =
      natDecimal e.count.toNat ++ ' ' :: e.name.data := by
    unfold renderEntryChars jsIntDecimal
    rw [if_neg (by omega), if_pos hlt]
  obtain ⟨d, ds, hds⟩ : ∃ d ds, natDecimal e.count.toNat = d :: ds := by
    cases hq : natDecimal e.count.toNat with
    | nil => exact absurd hq hd1
    | cons d ds => exact ⟨d, ds, rfl⟩
  have hddig : isDigitCh d = true := hd2 d (hds ▸ List.mem_cons_self _ _)
  have hhead : (renderEntryChars e).head? = some d := by
    rw [hrend, hds]; rfl
  have hlast : (renderEntryChars e).getLast? = e.name.data.getLast? := by
    rw [hrend, List.getLast?_append_of_ne_nil _ (List.cons_ne_nil ' ' _),
      show (' ' :: e.name.data) = [' '] ++ e.name.data from rfl,
      List.getLast?_append_of_ne_nil _ hne]
  have htrim : trimL (renderEntryChars e) = renderEntryChars e := by
    apply trimL_eq_self
    · intro a ha
      rw [hhead] at ha
      obtain rfl := Option.some.inj ha
      exact isDigitCh_not_ws hddig
    · intro a ha
      rw [hlast] at ha
      exact htrail a ha
  refine ⟨htrim, ?_, ?_, ?_, ?_⟩
  · rw [htrim, hrend]
    obtain ⟨ht, hdw⟩ :=
      takeWhile_append_not (p := isDigitCh) e.name.data hd2
        (by decide : isDigitCh ' ' = false)
    have hbody : entryBody (' ' :: e.name.data) = some e.name.data := by
      simp only [entryBody]
      rw [if_neg (by decide : ¬(' ' = 'x'))]
      exact wsName_cons_space hne hlead hterm
    simp only [matchEntry, ht, hdw, hbody]
    rw [if_neg (fun hq => hd1 (List.isEmpty_iff.mp hq))]
    rw [hd3, Int.toNat_of_nonneg hc, trimL_eq_self hlead htrail]
  · rw [htrim, hrend, hds, List.cons_append]
    exact (toLowerL_digit_ne_header hddig _).1
  · rw [htrim, hrend, hds, List.cons_append]
    exact (toLowerL_digit_ne_header hddig _).2
  · rw [hrend]
    intro hmem
    rcases List.mem_append.mp hmem with h | h
    · exact absurd (hd2 _ h) (by decide)
    · rcases List.mem_cons.mp h with h | h
      · exact absurd h (by decide)
      · exact hnl h

theorem processLine_nil (st : PState) : processLine st [] = st := by
  have h0 : trimL ([] : List Char) = [] := rfl
  rw [processLine_fallthrough_none st [] (by decide) (by decide) (by decide), h0]
  simp [explCollect]

theorem foldl_entry_lines_deck (es : List DeckEntry) (st : PState)
    (hsec : st.currentSection = some Sect.deck)
    (hes : ∀ e ∈ es, goodEntry e)
    (hlt : ∀ e ∈ es, e.count < 10 ^ 21) :
    (es.map renderEntryChars).foldl processLine st =
      { st with deck := st.deck ++ es } := by
  induction es generalizing st with
  | nil => simp
  | cons e es ih =>
    simp only [List.map_cons, List.foldl_cons]
    obtain ⟨htrim, hmatch, hd, hs, hnl⟩ :=
      renderEntry_facts e (hes e (List.mem_cons_self _ _))
        (hlt e (List.mem_cons_self _ _))
    rw [processLine_entry_deck st (renderEntryChars e) hd hs hmatch hsec]
    have hee : (⟨e.count, ⟨e.name.data⟩⟩ : DeckEntry) = e := rfl
    rw [hee, ih { st with deck := st.deck ++ [e] } hsec
      (fun x hx => hes x (List.mem_cons_of_mem _ hx))
      (fun x hx => hlt x (List.mem_cons_of_mem _ hx))]
    simp

theorem foldl_entry_lines_sideboard (es : List DeckEntry) (st : PState)
    (hsec : st.currentSection = some Sect.sideboard)
    (hes : ∀ e ∈ es, goodEntry e)
    (hlt : ∀ e ∈ es, e.count < 10 ^ 21) :
    (es.map renderEntryChars).foldl processLine st =
      { st with sideboard := st.sideboard ++ es } := by
  induction es generalizing st with
  | nil => simp
  | cons e es ih =>
    simp only [List.map_cons, List.foldl_cons]
    obtain ⟨htrim, hmatch, hd, hs, hnl⟩ :=
      renderEntry_facts e (hes e (List.mem_cons_self _ _))
        (hlt e (List.mem_cons_self _ _))
    rw [processLine_entry_sideboard st (renderEntryChars e) hd hs hmatch hsec]
    have hee : (⟨e.count, ⟨e.name.data⟩⟩ : DeckEntry) = e := rfl
    rw [hee, ih { st with sideboard := st.sideboard ++ [e] } hsec
      (fun x hx => hes x (List.mem_cons_of_mem _ hx))
      (fun x hx => hlt x (List.mem_cons_of_mem _ hx))]
    simp

theorem splitLines_flatten (es : List (List Char)) (rest : List Char)
    (h : ∀ l ∈ es, '\n' ∉ l) :
    splitLines ((es.map (fun l => l ++ ['\n'])).flatten ++ rest) =
      es ++ splitLines rest := by
  induction es with
  | nil => simp
  | cons l ls ih =>
    simp only [List.map_cons, List.flatten_cons, List.append_assoc,
      List.singleton_append, List.cons_append]
    rw [splitLines_append _ _ (h l (List.mem_cons_self _ _)), List.nil_append,
      ih (fun x hx => h x (List.mem_cons_of_mem _ hx))]

/-- Re-parsing the rendered deck text of a well-formed parsed deck whose
counts are all below 10^21 recovers the same main deck and sideboard
(and an empty explanation). -/
theorem reparse_render (d : ParsedDeck)
    (hmain : ∀ e ∈ d.deck, goodEntry e)
    (hsb : ∀ e ∈ d.sideboard.getD [], goodEntry e)
    (hne : d.deck ≠ []) (hsbne : d.sideboard ≠ some [])
    (hltm : ∀ e ∈ d.deck, e.count < 10 ^ 21)
    (hlts : ∀ e ∈ d.sideboard.getD [], e.count < 10 ^ 21) :
    parseDeckList (displayDeckText d) = some ⟨d.deck, d.sideboard, ""⟩ := by
  have hnlmain : ∀ l ∈ d.deck.map renderEntryChars, '\n' ∉ l := by
    intro l hl
    obtain ⟨e, he, rfl⟩ := List.mem_map.mp hl
    exact (renderEntry_facts e (hmain e he) (hltm e he)).2.2.2.2
  have hmap : d.deck.map (fun e => renderEntryChars e ++ ['\n']) =
      (d.deck.map renderEntryChars).map (fun l => l ++ ['\n']) := by
    rw [List.map_map]; rfl
  have hsplit_main :
      splitLines (((d.deck.map renderEntryChars).map (fun l => l ++ ['\n'])).flatten) =
        d.deck.map renderEntryChars ++ [[]] := by
    have h := splitLines_flatten (d.deck.map renderEntryChars) [] hnlmain
    rwa [List.append_nil, show splitLines ([] : List Char) = [[]] from rfl] at h
  rcases hsbv : d.sideboard with _ | sb
  · -- no sideboard
    have hdata : (displayDeckText d).data =
        "Deck".data ++ '\n' ::
          ((d.deck.map renderEntryChars).map (fun l => l ++ ['\n'])).flatten := by
      simp only [displayDeckText, hsbv]
      rw [List.append_nil, hmap]
      rfl
    have hfold : List.foldl processLine initState
        ("Deck".data :: (d.deck.map renderEntryChars ++ [[]])) =
        ⟨d.deck, [], some Sect.deck, [], false⟩ := by
      rw [List.foldl_cons, processLine_header_deck initState _ (by decide),
        List.foldl_append, foldl_entry_lines_deck d.deck _ rfl hmain hltm,
        List.foldl_cons, List.foldl_nil, processLine_nil]
      simp [initState]
    unfold parseDeckList
    rw [hdata, splitLines_append _ _ (by decide), hsplit_main]
    simp only [parseLines, hfold]
    rw [if_neg (fun hq => hne (List.isEmpty_iff.mp hq))]
    rfl
  · -- sideboard present (and non-empty, since the parser never emits `some []`)
    have hsbnenil : sb ≠ [] := fun h => hsbne (by rw [hsbv, h])
    have hsb' : ∀ e ∈ sb, goodEntry e := by simpa [hsbv] using hsb
    have hlts' : ∀ e ∈ sb, e.count < 10 ^ 21 := by simpa [hsbv] using hlts
    have hnlsb : ∀ l ∈ sb.map renderEntryChars, '\n' ∉ l := by
      intro l hl
      obtain ⟨e, he, rfl⟩ := List.mem_map.mp hl
      exact (renderEntry_facts e (hsb' e he) (hlts' e he)).2.2.2.2
    have hmapsb : sb.map (fun e => renderEntryChars e ++ ['\n']) =
        (sb.map renderEntryChars).map (fun l => l ++ ['\n']) := by
      rw [List.map_map]; rfl
    have hsplit_sb :
        splitLines (((sb.map renderEntryChars).map (fun l => l ++ ['\n'])).flatten) =
          sb.map renderEntryChars ++ [[]] := by
      have h := splitLines_flatten (sb.map renderEntryChars) [] hnlsb
      rwa [List.append_nil, show splitLines ([] : List Char) = [[]] from rfl] at h
    have hdata : (displayDeckText d).data =
        "Deck".data ++ '\n' ::
          (((d.deck.map renderEntryChars).map (fun l => l ++ ['\n'])).flatten ++
            ('\n' :: ("Sideboard".data ++ '\n' ::
              ((sb.map renderEntryChars).map (fun l => l ++ ['\n'])).flatten))) := by
      simp only [displayDeckText, hsbv]
      rw [if_neg (by simpa [List.isEmpty_iff] using hsbnenil), hmap, hmapsb]
      rfl
    have hfold : List.foldl processLine initState
        ("Deck".data :: (d.deck.map renderEntryChars ++
          ([] :: "Sideboard".data :: (sb.map renderEntryChars ++ [[]])))) =
        ⟨d.deck, sb, some Sect.sideboard, [], false⟩ := by
      rw [List.foldl_cons, processLine_header_deck initState _ (by decide),
        List.foldl_append, foldl_entry_lines_deck d.deck _ rfl hmain hltm,
        List.foldl_cons, processLine_nil,
        List.foldl_cons, processLine_header_sideboard _ _ (by decide) (by decide),
        List.foldl_append, foldl_entry_lines_sideboard sb _ rfl hsb' hlts',
        List.foldl_cons, List.foldl_nil, processLine_nil]
      simp [initState]
    unfold parseDeckList
    rw [hdata, splitLines_append _ _ (by decide),
      splitLines_flatten _ _ hnlmain, splitLines_cons_newline,
      splitLines_append _ _ (by decide), hsplit_sb]
    simp only [parseLines, hfold]
    rw [if_neg (fun hq => hne (List.isEmpty_iff.mp hq)),
      if_pos (List.length_pos.mpr hsbnenil)]
    rfl

/-- **C4** counterexample: the reply `Deck\n1000000000000000000000 Mountain`
parses (the 22-digit token is `parseInt`ed to 10^21, which is exactly
representable as a double), but `displayDeck` renders the count as
`1e+21` — JavaScript's `ToString` uses exponential notation from 10^21
on — and re-parsing the rendered text matches no entry line at all, so
the round trip does not even produce a deck. -/
theorem parse_render_round_trip_counterexample :
    parseDeckList "Deck\n1000000000000000000000 Mountain" =
      some ⟨[⟨10 ^ 21, "Mountain"⟩], none, ""⟩ ∧
    displayDeckText ⟨[⟨10 ^ 21, "Mountain"⟩], none, ""⟩ =
      "Deck\n1e+21 Mountain\n" ∧
    parseDeckList (displayDeckText ⟨[⟨10 ^ 21, "Mountain"⟩], none, ""⟩) = none := by
  refine ⟨by decide, by decide, by decide⟩

/-- **C4** (amended): re-parsing the rendered deck text of a successfully
parsed deck yields the same main-deck entries in the same order and the
same sideboard entries in the same order (explanation aside), provided
every entry count is below 10^21 — the threshold from which JavaScript
renders numbers in exponential notation, which the entry regexp cannot
re-parse. -/
theorem parse_render_round_trip (text : String) (d : ParsedDeck)
    (h : parseDeckList text = some d)
    (hltm : ∀ e ∈ d.deck, e.count < 10 ^ 21)
    (hlts : ∀ e ∈ d.sideboard.getD [], e.count < 10 ^ 21) :
    ∃ p, parseDeckList (displayDeckText d) = some p ∧
      p.deck = d.deck ∧ p.sideboard = d.sideboard := by
  obtain ⟨hmain, hsb, hne, hsbne⟩ := parseDeckList_good h
  exact ⟨⟨d.deck, d.sideboard, ""⟩,
    reparse_render d hmain hsb hne hsbne hltm hlts, rfl, rfl⟩

/-- Witness for the amended C4 at a concrete reply. -/
theorem parse_render_round_trip_witness :
    parseDeckList "Deck\n2 Shock\n1 Negate\n\nSideboard\n2 Duress" =
      some ⟨[⟨2, "Shock"⟩, ⟨1, "Negate"⟩], some [⟨2, "Duress"⟩], ""⟩ ∧
    ∃ p, parseDeckList (displayDeckText
        ⟨[⟨2, "Shock"⟩, ⟨1, "Negate"⟩], some [⟨2, "Duress"⟩], ""⟩) = some p ∧
      p.deck = [⟨2, "Shock"⟩, ⟨1, "Negate"⟩] ∧ p.sideboard = some [⟨2, "Duress"⟩] :=
  ⟨by decide,
   parse_render_round_trip "Deck\n2 Shock\n1 Negate\n\nSideboard\n2 Duress" _
     (by decide) (by decide) (by decide)⟩

end DeckBuilder
